import Mathlib

/-!
Verification of the palette-extraction core of `bg-manager`.

The embedding follows `src/app.rs`, `src/unique.rs` and `src/config.rs`:
colors are RGB triples with rational channels (the Rust code uses `f32`
channels normalized to `[0, 1]`); the external image loader and the
dominant-color clustering library are modelled as explicit oracle
functions, so that every function of the core becomes a pure Lean
function of its inputs and of those oracles.
-/

/-- An RGB color value. Models `cosmic::iced::Color` / `palette::Srgb`:
three normalized channels. The alpha channel is constantly `1` in every
color the applet builds (`color!` and the `Srgb -> Color` conversion both
set it to `1`), so it is omitted. -/
structure Color where
  r : ℚ
  g : ℚ
  b : ℚ
deriving DecidableEq, Repr

/-- `palette`'s relative `lighten`: each channel moves toward the maximum
(white) by the given fraction. This is the "mix toward white" transform
used by `update_bg` for single-color wallpapers. -/
def lighten (c : Color) (f : ℚ) : Color :=
  ⟨c.r + (1 - c.r) * f, c.g + (1 - c.g) * f, c.b + (1 - c.b) * f⟩

/-- `palette`'s relative `darken`: each channel moves toward zero (black)
by the given fraction. -/
def darken (c : Color) (f : ℚ) : Color :=
  ⟨c.r - c.r * f, c.g - c.g * f, c.b - c.b * f⟩

/-- `palette`'s `mix`: channel-wise linear interpolation
`l + (r - l) * f`. `update_bg` always calls it with factor `1/2`. -/
def mix (l r : Color) (f : ℚ) : Color :=
  ⟨l.r + (r.r - l.r) * f, l.g + (r.g - l.g) * f, l.b + (r.b - l.b) * f⟩

/-- `cosmic_bg_config::Color`: a solid color or a gradient
(`Gradient { colors, .. }`; only the stop list is relevant here). -/
inductive BgColor where
  | single (c : Color)
  | gradient (stops : List Color)
deriving DecidableEq

/-- `cosmic_bg_config::Source`: an image path or a procedural color. -/
inductive Source where
  | path (p : String)
  | color (c : BgColor)
deriving DecidableEq

/-- `cosmic_bg_config::Entry`: one wallpaper-configuration entry. Only
the fields the applet reads are modelled: the output it applies to and
its wallpaper source. -/
structure Entry where
  output : String
  source : Source
deriving DecidableEq

/-! ## The unique collector (`src/unique.rs`) -/

/-- `FromUniqueIterator for Vec` (`src/unique.rs`, lines 16-26): fold the
input, appending an element only when the accumulator does not already
contain it. Rust's `vec.contains(&i)` is `PartialEq` membership, modelled
by decidable equality. -/
def from_unique_iter {A : Type} [DecidableEq A] (l : List A) : List A :=
  l.foldl (fun vec i => if i ∈ vec then vec else vec ++ [i]) []

/-- Remove every occurrence of `a` from a list (helper for the
first-occurrence characterization). -/
def dropVal {A : Type} [DecidableEq A] (a : A) : List A → List A
  | [] => []
  | b :: bs => if b = a then dropVal a bs else b :: dropVal a bs

/-- Remove every element of `acc` from a list. -/
def dropAll {A : Type} [DecidableEq A] (acc : List A) : List A → List A
  | [] => []
  | b :: bs => if b ∈ acc then dropAll acc bs else b :: dropAll acc bs

/-- The first occurrence of each distinct value of the input, in the
relative order of those first occurrences: keep the head, then keep the
first occurrences of the tail with all copies of the head removed. This
is the spec's description of the Unique Collector's output, stated
independently of the fold in `unique.rs`. -/
def firstOccurrences {A : Type} [DecidableEq A] : List A → List A
  | [] => []
  | a :: as => a :: dropVal a (firstOccurrences as)

namespace UniqueLemmas

variable {A : Type} [DecidableEq A]

theorem mem_dropVal {a x : A} {l : List A} :
    x ∈ dropVal a l ↔ x ∈ l ∧ x ≠ a := by
  induction l with
  | nil => simp [dropVal]
  | cons b bs ih =>
    rw [dropVal]
    by_cases hb : b = a
    · rw [if_pos hb, ih, List.mem_cons]
      subst hb
      constructor
      · rintro ⟨hx, hne⟩
        exact ⟨Or.inr hx, hne⟩
      · rintro ⟨hx | hx, hne⟩
        · exact absurd hx hne
        · exact ⟨hx, hne⟩
    · rw [if_neg hb, List.mem_cons, List.mem_cons, ih]
      constructor
      · rintro (rfl | ⟨hx, hne⟩)
        · exact ⟨Or.inl rfl, hb⟩
        · exact ⟨Or.inr hx, hne⟩
      · rintro ⟨hx | hx, hne⟩
        · exact Or.inl hx
        · exact Or.inr ⟨hx, hne⟩

theorem not_mem_dropVal_self (a : A) (l : List A) : a ∉ dropVal a l := by
  intro h
  exact (mem_dropVal.mp h).2 rfl

theorem dropVal_sublist (a : A) (l : List A) : List.Sublist (dropVal a l) l := by
  induction l with
  | nil => simp [dropVal]
  | cons b bs ih =>
    by_cases hb : b = a
    · simpa [dropVal, hb] using ih.cons b
    · simpa [dropVal, hb] using ih.cons₂ b

theorem dropVal_eq_self_of_not_mem {a : A} {l : List A} (h : a ∉ l) :
    dropVal a l = l := by
  induction l with
  | nil => rfl
  | cons b bs ih =>
    have hb : b ≠ a := fun hba => h (by simp [hba])
    have hbs : a ∉ bs := fun hm => h (List.mem_cons_of_mem _ hm)
    simp [dropVal, hb, ih hbs]

theorem dropVal_idem (a : A) (l : List A) :
    dropVal a (dropVal a l) = dropVal a l :=
  dropVal_eq_self_of_not_mem (not_mem_dropVal_self a l)

theorem dropVal_comm (a b : A) (l : List A) :
    dropVal a (dropVal b l) = dropVal b (dropVal a l) := by
  induction l with
  | nil => rfl
  | cons c cs ih =>
    by_cases hcb : c = b <;> by_cases hca : c = a
    · have hba : b = a := hcb.symm.trans hca
      simp [dropVal, hcb, hca, hba, ih]
    · have hba : ¬b = a := fun h => hca (hcb.trans h)
      simp [dropVal, hcb, hca, hba, ih]
    · have hab : ¬a = b := fun h => hcb (hca.trans h)
      simp [dropVal, hcb, hca, hab, ih]
    · simp [dropVal, hcb, hca, ih]

theorem dropVal_nodup {a : A} {l : List A} (h : l.Nodup) :
    (dropVal a l).Nodup :=
  (dropVal_sublist a l).nodup h

theorem firstOccurrences_nodup (l : List A) : (firstOccurrences l).Nodup := by
  induction l with
  | nil => simp [firstOccurrences]
  | cons a as ih =>
    simp only [firstOccurrences, List.nodup_cons]
    exact ⟨not_mem_dropVal_self a _, dropVal_nodup ih⟩

theorem firstOccurrences_sublist (l : List A) :
    List.Sublist (firstOccurrences l) l := by
  induction l with
  | nil => simp [firstOccurrences]
  | cons a as ih =>
    exact ((dropVal_sublist a (firstOccurrences as)).trans ih).cons₂ a

theorem firstOccurrences_of_nodup {l : List A} (h : l.Nodup) :
    firstOccurrences l = l := by
  induction l with
  | nil => rfl
  | cons a as ih =>
    rcases List.nodup_cons.mp h with ⟨ha, has⟩
    rw [firstOccurrences, ih has, dropVal_eq_self_of_not_mem ha]

theorem firstOccurrences_dropVal (a : A) (l : List A) :
    firstOccurrences (dropVal a l) = dropVal a (firstOccurrences l) := by
  induction l with
  | nil => rfl
  | cons c cs ih =>
    by_cases hca : c = a
    · subst hca
      rw [dropVal, if_pos rfl, ih, firstOccurrences, dropVal, if_pos rfl,
        dropVal_comm, dropVal_idem]
    · rw [dropVal, if_neg hca, firstOccurrences, firstOccurrences, ih,
        dropVal, if_neg hca, dropVal_comm]

theorem dropAll_nil (l : List A) : dropAll [] l = l := by
  induction l with
  | nil => rfl
  | cons b bs ih => simp [dropAll, ih]

theorem dropAll_append_singleton (acc : List A) (i : A) (l : List A) :
    dropAll (acc ++ [i]) l = dropVal i (dropAll acc l) := by
  induction l with
  | nil => rfl
  | cons b bs ih =>
    by_cases hmem : b ∈ acc
    · simp [dropAll, dropVal, hmem, ih]
    · by_cases hbi : b = i
      · subst hbi
        simp [dropAll, dropVal, hmem, ih]
      · have : b ∉ acc ++ [i] := by
          simp [List.mem_append, hmem, hbi]
        simp [dropAll, dropVal, hmem, hbi, this, ih]

theorem foldl_unique (l acc : List A) :
    l.foldl (fun vec i => if i ∈ vec then vec else vec ++ [i]) acc =
      acc ++ firstOccurrences (dropAll acc l) := by
  induction l generalizing acc with
  | nil => simp [dropAll, firstOccurrences]
  | cons i rest ih =>
    by_cases hmem : i ∈ acc
    · rw [List.foldl_cons, if_pos hmem, ih, dropAll, if_pos hmem]
    · rw [List.foldl_cons, if_neg hmem, ih, dropAll, if_neg hmem,
        firstOccurrences, dropAll_append_singleton, firstOccurrences_dropVal,
        List.append_assoc, List.singleton_append]

theorem from_unique_eq_firstOccurrences (l : List A) :
    from_unique_iter l = firstOccurrences l := by
  rw [from_unique_iter, foldl_unique, dropAll_nil, List.nil_append]

theorem from_unique_nodup (l : List A) : (from_unique_iter l).Nodup := by
  rw [from_unique_eq_firstOccurrences]
  exact firstOccurrences_nodup l

theorem from_unique_sublist (l : List A) :
    List.Sublist (from_unique_iter l) l := by
  rw [from_unique_eq_firstOccurrences]
  exact firstOccurrences_sublist l

theorem from_unique_idem (l : List A) :
    from_unique_iter (from_unique_iter l) = from_unique_iter l := by
  rw [from_unique_eq_firstOccurrences (from_unique_iter l),
    firstOccurrences_of_nodup (from_unique_nodup l)]

end UniqueLemmas

/-! ## The palette extractor (`src/app.rs`) -/

/-- A decoded thumbnail, as handed back by the external
`load_image_with_thumbnail`: its dimensions and its pixels as RGB byte
triples (the alpha channel is already dropped by `p.to_rgb()`). -/
structure Thumbnail where
  width : ℕ
  height : ℕ
  pixels : List (ℕ × ℕ × ℕ)

/-- Oracle for the external image loader `load_image_with_thumbnail`:
`none` models a failed load (missing file, unsupported or corrupt
format). -/
def Loader : Type := String → Option Thumbnail

/-- Oracle for the external clustering routine
`dominant_color::get_colors_with_config`: flattened RGB bytes,
dark/light-exclusion flag, maximum candidate count and merge tolerance
in, flat byte sequence of dominant colors out. -/
def Cluster : Type := List ℕ → Bool → ℕ → ℚ → List ℕ

/-- Flatten pixels into the byte sequence `flat_map(|p| p.to_rgb().0)`. -/
def flatRgb : List (ℕ × ℕ × ℕ) → List ℕ
  | [] => []
  | p :: ps => p.1 :: p.2.1 :: p.2.2 :: flatRgb ps

/-- `chunks_exact(3)`: the complete 3-chunks of a byte list, in order; a
trailing remainder shorter than 3 is dropped. -/
def chunksExact3 : List ℕ → List (ℕ × ℕ × ℕ)
  | a :: b :: c :: rest => (a, b, c) :: chunksExact3 rest
  | _ => []

/-- `iced`'s `color!` applied to three bytes: channels divided by 255. -/
def byteColor (p : ℕ × ℕ × ℕ) : Color :=
  ⟨(p.1 : ℚ) / 255, (p.2.1 : ℚ) / 255, (p.2.2 : ℚ) / 255⟩

/-- `dominant_colors` (`src/app.rs`, lines 323-341): load the thumbnail;
on failure return the empty list; on success flatten the pixels to RGB
bytes, run the clustering oracle (no dark/light exclusion, candidate
count `width * height`, tolerance `0.001`) and regroup the resulting
bytes into colors. -/
def dominant_colors (load : Loader) (cluster : Cluster) (path : String) :
    List Color :=
  match load path with
  | none => []
  | some t =>
      let pixels := flatRgb t.pixels
      let a := cluster pixels false (t.width * t.height) (1 / 1000)
      (chunksExact3 a).map byteColor

/-- `gradient.colors.iter().map(Srgb::from).reduce(|l, r| l.mix(r, 0.5))`:
`none` on an empty stop list, otherwise the left fold of the tail
starting from the head. -/
def reduceMix : List Color → Option Color
  | [] => none
  | c :: cs => some (cs.foldl (fun l r => mix l r (1 / 2)) c)

/-- The `Source` match inside `update_bg` (`src/app.rs`, lines 61-89):
one wallpaper source's color contribution. An image path defers to
`dominant_colors`; a single color fans out into two tints and two
shades; a gradient passes its stops through and appends the 50/50 mix
reduction when it exists. -/
def extractSource (load : Loader) (cluster : Cluster) : Source → List Color
  | .path p => dominant_colors load cluster p
  | .color (.single c) =>
      [lighten c (66 / 100), lighten c (33 / 100),
       darken c (33 / 100), darken c (66 / 100)]
  | .color (.gradient stops) =>
      match reduceMix stops with
      | some c => stops ++ [c]
      | none => stops

/-- `flat_map` over a list of values. -/
def flatMapL {α β : Type} (f : α → List β) : List α → List β
  | [] => []
  | a :: as => f a ++ flatMapL f as

/-! ## Application state and handlers (`src/app.rs`, `src/config.rs`) -/

/-- The applet's own configuration (`src/config.rs`, lines 11-17): the
enabled flag and the stored dark/light entry lists. -/
structure Config where
  enabled : Bool
  dark : List Entry
  light : List Entry
deriving DecidableEq

/-- The background daemon's store (`cosmic_bg_config::Config`): the
`same_on_all` flag, the default background entry and the per-output
backgrounds list — the fields `update_bg` reads. -/
structure BgStore where
  same_on_all : Bool
  default_background : Entry
  backgrounds : List Entry
deriving DecidableEq

/-- Oracle for `cosmic_bg_config::Config::set_entry`: how the external
store incorporates one written entry (owned by the `cosmic-bg-config`
crate, not this repository). -/
def SetEntry : Type := BgStore → Entry → BgStore

/-- First stage of `AppModel::update_bg` (`src/app.rs`, lines 42-51):
when the applet is enabled, write each mode-specific configured entry
(dark when `is_dark`, light otherwise) into the loaded background
store, left to right; otherwise leave the store as loaded. -/
def writeEntries (setEntry : SetEntry) (cfg : Config) (store : BgStore)
    (is_dark : Bool) : BgStore :=
  if cfg.enabled then
    (if is_dark then cfg.dark else cfg.light).foldl setEntry store
  else store

/-- Background selection of `AppModel::update_bg` (`src/app.rs`, lines
53-57): the single default background when `same_on_all`, else the
per-output backgrounds list. -/
def selectBackgrounds (store : BgStore) : List Entry :=
  if store.same_on_all then [store.default_background]
  else store.backgrounds

/-- The palette computed by `AppModel::update_bg` (`src/app.rs`, lines
59-91): every background's extracted colors, flat-mapped and collected
uniquely. -/
def paletteOf (load : Loader) (cluster : Cluster) (backgrounds : List Entry) :
    List Color :=
  from_unique_iter
    (flatMapL (fun e => extractSource load cluster e.source) backgrounds)

/-- `AppModel::update_bg` (`src/app.rs`, lines 39-92): write the
mode-specific entries into the store when enabled, then recompute the
palette from the resulting store state. Returns the resulting store
state and the new palette. -/
def update_bg (setEntry : SetEntry) (load : Loader) (cluster : Cluster)
    (cfg : Config) (store : BgStore) (is_dark : Bool) :
    BgStore × List Color :=
  (writeEntries setEntry cfg store is_dark,
    paletteOf load cluster
      (selectBackgrounds (writeEntries setEntry cfg store is_dark)))

/-- The applet's mutable state (`AppModel`, `src/app.rs`, lines 28-36):
popup id, configuration and current palette (window-system and channel
handles are host-owned and outside the model). -/
structure AppModel where
  popup : Option ℕ
  config : Config
  colors : List Color
deriving DecidableEq

/-- The `Message::BgUpdate` arm of `AppModel::update` (`src/app.rs`,
lines 250-264): an empty entries list returns immediately; otherwise the
entries are stored as the current mode's list when they differ from the
stored one. -/
def handleBgUpdate (m : AppModel) (is_dark : Bool) (entries : List Entry) :
    AppModel :=
  if entries = [] then m
  else if is_dark = true ∧ entries ≠ m.config.dark then
    { m with config := { m.config with dark := entries } }
  else if is_dark = false ∧ entries ≠ m.config.light then
    { m with config := { m.config with light := entries } }
  else m

/-! ## Channel bounds, lightness order and stop influence -/

/-- A well-formed color: every channel within `[0, 1]`. -/
def validColor (c : Color) : Prop :=
  0 ≤ c.r ∧ c.r ≤ 1 ∧ 0 ≤ c.g ∧ c.g ≤ 1 ∧ 0 ≤ c.b ∧ c.b ≤ 1

instance (c : Color) : Decidable (validColor c) := by
  unfold validColor; infer_instance

/-- `a` is at least as light as `b`: channel-wise domination. -/
def lighterEq (a b : Color) : Prop :=
  b.r ≤ a.r ∧ b.g ≤ a.g ∧ b.b ≤ a.b

instance (a b : Color) : Decidable (lighterEq a b) := by
  unfold lighterEq; infer_instance

def white : Color := ⟨1, 1, 1⟩

def black : Color := ⟨0, 0, 0⟩

/-- A gradient stop list of length `n` that is white at position `k`
(0-indexed) and black everywhere else. -/
def stopsWhiteAt (n k : ℕ) : List Color :=
  List.replicate k black ++ white :: List.replicate (n - k - 1) black

/-- The influence (linear weight) of stop `k` on the blended color that
`update_bg` appends to a gradient of `n` stops: the red channel of the
left-to-right 50/50 mix reduction over `stopsWhiteAt n k`. -/
def influence (n k : ℕ) : ℚ :=
  ((reduceMix (stopsWhiteAt n k)).getD black).r

namespace MixLemmas

theorem foldl_mix_replicate_black (m : ℕ) (a : Color) :
    (List.replicate m black).foldl (fun l r => mix l r (1 / 2)) a =
      ⟨a.r * (1 / 2) ^ m, a.g * (1 / 2) ^ m, a.b * (1 / 2) ^ m⟩ := by
  induction m generalizing a with
  | zero => simp
  | succ m ih =>
    rw [List.replicate_succ, List.foldl_cons, ih]
    simp only [mix, black, Color.mk.injEq]
    refine ⟨by ring, by ring, by ring⟩

theorem foldl_mix_replicate_black_of_black (m : ℕ) :
    (List.replicate m black).foldl (fun l r => mix l r (1 / 2)) black =
      black := by
  rw [foldl_mix_replicate_black]
  simp [black]

theorem mix_black_white : mix black white (1 / 2) = ⟨1 / 2, 1 / 2, 1 / 2⟩ := by
  simp only [mix, black, white, Color.mk.injEq]
  norm_num

theorem influence_zero (n : ℕ) :
    influence n 0 = (1 / 2 : ℚ) ^ (n - 1) := by
  unfold influence stopsWhiteAt
  rw [List.replicate_zero, List.nil_append, reduceMix,
    foldl_mix_replicate_black]
  simp [white]

theorem influence_succ (n j : ℕ) (h : j + 1 < n) :
    influence n (j + 1) = (1 / 2 : ℚ) ^ (n - (j + 1)) := by
  unfold influence stopsWhiteAt
  rw [List.replicate_succ, List.cons_append, reduceMix, List.foldl_append,
    foldl_mix_replicate_black_of_black, List.foldl_cons, mix_black_white]
  rw [foldl_mix_replicate_black]
  simp only [Option.getD_some]
  have hm : n - (j + 1) = n - (j + 1) - 1 + 1 := by omega
  generalize hq : n - (j + 1) - 1 = m at hm ⊢
  rw [hm, pow_succ]
  ring

/-- The weight of stop `k` among `n` stops under the left-to-right 50/50
reduction: `(1/2)^(n-1)` for the first stop, `(1/2)^(n-k)` for every
later stop. -/
theorem influence_formula (n k : ℕ) (h : k < n) :
    influence n k =
      if k = 0 then (1 / 2 : ℚ) ^ (n - 1) else (1 / 2 : ℚ) ^ (n - k) := by
  cases k with
  | zero => simpa using influence_zero n
  | succ j =>
    rw [if_neg (Nat.succ_ne_zero j)]
    exact influence_succ n j h

theorem influence_mono (n i j : ℕ) (hij : i < j) (hjn : j < n) :
    influence n i ≤ influence n j := by
  rw [influence_formula n i (hij.trans hjn), influence_formula n j hjn]
  have h0 : (0 : ℚ) ≤ 1 / 2 := by norm_num
  have h1 : (1 / 2 : ℚ) ≤ 1 := by norm_num
  have hj0 : j ≠ 0 := by omega
  rw [if_neg hj0]
  by_cases hi : i = 0
  · rw [if_pos hi]
    exact pow_le_pow_of_le_one h0 h1 (by omega)
  · rw [if_neg hi]
    exact pow_le_pow_of_le_one h0 h1 (by omega)

theorem influence_strict (n : ℕ) (h : 2 < n) :
    influence n 0 < influence n (n - 1) := by
  rw [influence_formula n 0 (by omega), influence_formula n (n - 1) (by omega)]
  rw [if_pos rfl, if_neg (by omega : n - 1 ≠ 0)]
  have harith : n - (n - 1) = 1 := by omega
  rw [harith]
  exact pow_lt_pow_right_of_lt_one₀ (by norm_num) (by norm_num) (by omega)

end MixLemmas

namespace PipeLemmas

theorem flatMapL_append {α β : Type} (f : α → List β) (l₁ l₂ : List α) :
    flatMapL f (l₁ ++ l₂) = flatMapL f l₁ ++ flatMapL f l₂ := by
  induction l₁ with
  | nil => simp [flatMapL]
  | cons a as ih => simp [flatMapL, ih]

end PipeLemmas

/-! ## Claim theorems -/

/-- C1: for every base color `c` (channels in `[0,1]`), extracting from
`ColorSpec::Single(c)` yields exactly 4 colors, in the fixed order
`lighten c 66%`, `lighten c 33%`, `darken c 33%`, `darken c 66%`, and
that order is lightest to darkest (channel-wise), independent of `c`'s
value. -/
theorem claim_C1_single_fanout (load : Loader) (cluster : Cluster)
    (c : Color) (h : validColor c) :
    extractSource load cluster (.color (.single c)) =
      [lighten c (66 / 100), lighten c (33 / 100),
       darken c (33 / 100), darken c (66 / 100)] ∧
    (extractSource load cluster (.color (.single c))).length = 4 ∧
    List.Chain' lighterEq (extractSource load cluster (.color (.single c))) := by
  obtain ⟨h1, h2, h3, h4, h5, h6⟩ := h
  refine ⟨rfl, rfl, ?_⟩
  simp only [extractSource, List.chain'_cons, List.chain'_singleton, and_true,
    lighterEq, lighten, darken]
  refine ⟨⟨?_, ?_, ?_⟩, ⟨?_, ?_, ?_⟩, ?_, ?_, ?_⟩ <;> linarith

/-- Witness for C1 at the base color red `(1, 0, 0)`. -/
theorem claim_C1_single_fanout_witness :
    validColor ⟨1, 0, 0⟩ ∧
      (extractSource (fun _ => none) (fun _ _ _ _ => [])
          (.color (.single ⟨1, 0, 0⟩)) =
        [lighten ⟨1, 0, 0⟩ (66 / 100), lighten ⟨1, 0, 0⟩ (33 / 100),
         darken ⟨1, 0, 0⟩ (33 / 100), darken ⟨1, 0, 0⟩ (66 / 100)] ∧
      (extractSource (fun _ => none) (fun _ _ _ _ => [])
          (.color (.single ⟨1, 0, 0⟩))).length = 4 ∧
      List.Chain' lighterEq
        (extractSource (fun _ => none) (fun _ _ _ _ => [])
          (.color (.single ⟨1, 0, 0⟩)))) :=
  ⟨by decide, claim_C1_single_fanout _ _ _ (by decide)⟩

/-- C2: extracting from `ColorSpec::Gradient(stops)` yields every stop
unchanged in stored order, followed (when at least one stop exists) by
the left-to-right 50/50 mix fold of the stops; the output length is
stop count + 1, and an empty stop list yields the empty sequence. In
particular `Gradient([c])` yields `[c, c]` and `Gradient([c₁, c₂])`
yields `[c₁, c₂, mix c₁ c₂ ½]`. -/
theorem claim_C2_gradient_passthrough (load : Loader) (cluster : Cluster) :
    extractSource load cluster (.color (.gradient [])) = [] ∧
    (∀ stops : List Color, stops ≠ [] →
      ∃ m, reduceMix stops = some m ∧
        extractSource load cluster (.color (.gradient stops)) =
          stops ++ [m] ∧
        (extractSource load cluster (.color (.gradient stops))).length =
          stops.length + 1) ∧
    (∀ c : Color,
      extractSource load cluster (.color (.gradient [c])) = [c, c]) ∧
    (∀ c₁ c₂ : Color,
      extractSource load cluster (.color (.gradient [c₁, c₂])) =
        [c₁, c₂, mix c₁ c₂ (1 / 2)]) := by
  refine ⟨rfl, ?_, fun c => rfl, fun c₁ c₂ => rfl⟩
  intro stops hne
  cases stops with
  | nil => exact absurd rfl hne
  | cons c cs =>
    refine ⟨_, rfl, rfl, ?_⟩
    show ((c :: cs) ++ [cs.foldl (fun l r => mix l r (1 / 2)) c]).length =
      (c :: cs).length + 1
    simp

/-- Witness for C2 at the one-stop gradient `[(1, 0, 0)]`. -/
theorem claim_C2_gradient_passthrough_witness :
    (([⟨1, 0, 0⟩] : List Color) ≠ []) ∧
      ∃ m, reduceMix [(⟨1, 0, 0⟩ : Color)] = some m ∧
        extractSource (fun _ => none) (fun _ _ _ _ => [])
            (.color (.gradient [⟨1, 0, 0⟩])) = [⟨1, 0, 0⟩] ++ [m] ∧
        (extractSource (fun _ => none) (fun _ _ _ _ => [])
            (.color (.gradient [⟨1, 0, 0⟩]))).length =
          ([⟨1, 0, 0⟩] : List Color).length + 1 :=
  ⟨by decide,
    (claim_C2_gradient_passthrough (fun _ => none) (fun _ _ _ _ => [])).2.1
      [⟨1, 0, 0⟩] (by decide)⟩

/-- C3: the unique collector's output has no two equal elements and is
exactly the subsequence of the input consisting of the first occurrence
of each distinct value, in the relative order of those first
occurrences (`firstOccurrences`). -/
theorem claim_C3_unique_collector {A : Type} [DecidableEq A] (l : List A) :
    (from_unique_iter l).Nodup ∧
    from_unique_iter l = firstOccurrences l ∧
    List.Sublist (from_unique_iter l) l :=
  ⟨UniqueLemmas.from_unique_nodup l,
   UniqueLemmas.from_unique_eq_firstOccurrences l,
   UniqueLemmas.from_unique_sublist l⟩

/-- C4: the unique collector is idempotent. -/
theorem claim_C4_unique_idempotent {A : Type} [DecidableEq A] (l : List A) :
    from_unique_iter (from_unique_iter l) = from_unique_iter l :=
  UniqueLemmas.from_unique_idem l

/-- C5: when the image load fails, `dominant_colors` returns the empty
sequence (no propagating error: the function is total and the failure
branch yields `[]`), extraction of that path source contributes nothing,
and the overall palette over any surrounding sources is exactly the
palette without the failing source — no per-source failure aborts it. -/
theorem claim_C5_image_failure (load : Loader) (cluster : Cluster)
    (p : String) (h : load p = none) :
    dominant_colors load cluster p = [] ∧
    extractSource load cluster (.path p) = [] ∧
    ∀ (es₁ es₂ : List Entry) (o : String),
      paletteOf load cluster (es₁ ++ ⟨o, .path p⟩ :: es₂) =
        paletteOf load cluster (es₁ ++ es₂) := by
  have hd : dominant_colors load cluster p = [] := by
    unfold dominant_colors
    rw [h]
  have hex : extractSource load cluster (Source.path p) = [] := hd
  refine ⟨hd, hex, ?_⟩
  intro es₁ es₂ o
  unfold paletteOf
  rw [PipeLemmas.flatMapL_append, PipeLemmas.flatMapL_append, flatMapL]
  simp [hex]

/-- Witness for C5 at a loader with no images and the path `"missing"`. -/
theorem claim_C5_image_failure_witness :
    ((fun _ => none : Loader) "missing" = none) ∧
      (dominant_colors (fun _ => none) (fun _ _ _ _ => []) "missing" = [] ∧
       extractSource (fun _ => none) (fun _ _ _ _ => [])
          (.path "missing") = [] ∧
       ∀ (es₁ es₂ : List Entry) (o : String),
         paletteOf (fun _ => none) (fun _ _ _ _ => [])
             (es₁ ++ ⟨o, .path "missing"⟩ :: es₂) =
           paletteOf (fun _ => none) (fun _ _ _ _ => []) (es₁ ++ es₂)) :=
  ⟨rfl, claim_C5_image_failure (fun _ => none) (fun _ _ _ _ => []) "missing" rfl⟩

/-- C6: after every palette recomputation (`update_bg`), for every set
of wallpaper sources and every behavior of the external store and
libraries, the resulting palette contains no two elements that compare
equal under exact channel equality. -/
theorem claim_C6_palette_nodup (setEntry : SetEntry) (load : Loader)
    (cluster : Cluster) (cfg : Config) (store : BgStore) (is_dark : Bool) :
    ((update_bg setEntry load cluster cfg store is_dark).2).Nodup := by
  show (paletteOf load cluster _).Nodup
  exact UniqueLemmas.from_unique_nodup _

/-- C7: the palette extractor is deterministic — its output is a
function of the wallpaper source value and of the external loader and
clustering behaviors alone, so two calls with the same source and the
same external behavior produce identical colors in identical order. -/
theorem claim_C7_deterministic (load₁ load₂ : Loader)
    (cluster₁ cluster₂ : Cluster) (s₁ s₂ : Source)
    (hl : ∀ q, load₁ q = load₂ q)
    (hc : ∀ bytes flag cap tol,
      cluster₁ bytes flag cap tol = cluster₂ bytes flag cap tol)
    (hs : s₁ = s₂) :
    extractSource load₁ cluster₁ s₁ = extractSource load₂ cluster₂ s₂ := by
  subst hs
  have hle : load₁ = load₂ := funext hl
  have hce : cluster₁ = cluster₂ :=
    funext fun a => funext fun b => funext fun c => funext fun d => hc a b c d
  rw [hle, hce]

/-- Witness for C7 at the solid red source and the empty-world oracles. -/
theorem claim_C7_deterministic_witness :
    (∀ q, (fun _ => none : Loader) q = (fun _ => none : Loader) q) ∧
      (∀ bytes flag cap tol,
        (fun _ _ _ _ => [] : Cluster) bytes flag cap tol =
          (fun _ _ _ _ => [] : Cluster) bytes flag cap tol) ∧
      ((Source.color (.single ⟨1, 0, 0⟩)) = (Source.color (.single ⟨1, 0, 0⟩))) ∧
      extractSource (fun _ => none) (fun _ _ _ _ => [])
          (.color (.single ⟨1, 0, 0⟩)) =
        extractSource (fun _ => none) (fun _ _ _ _ => [])
          (.color (.single ⟨1, 0, 0⟩)) :=
  ⟨fun _ => rfl, fun _ _ _ _ => rfl, rfl,
    claim_C7_deterministic _ _ _ _ _ _ (fun _ => rfl) (fun _ _ _ _ => rfl) rfl⟩

/-- C8 counterexample: in a three-stop gradient the first stop's
influence on the appended blend is `1/4` while the last stop's is
`1/2`, so an earlier stop's weight is NOT at least a later stop's —
the left-to-right pairwise mix favors later stops. -/
theorem claim_C8_counterexample :
    ¬ (influence 3 2 ≤ influence 3 0) := by
  rw [MixLemmas.influence_formula 3 2 (by norm_num),
    MixLemmas.influence_formula 3 0 (by norm_num)]
  norm_num

/-- C8 (amended): for gradients with more than two stops, the strict
left-to-right pairwise 50/50 mix reduction gives LATER stops at least
as much influence as earlier stops, and the last stop strictly more
than the first. -/
theorem claim_C8_amended_later_stops_dominate (n i j : ℕ) (h2 : 2 < n)
    (hij : i < j) (hjn : j < n) :
    influence n i ≤ influence n j ∧ influence n 0 < influence n (n - 1) :=
  ⟨MixLemmas.influence_mono n i j hij hjn, MixLemmas.influence_strict n h2⟩

/-- Witness for the amended C8 at `n = 3`, stops `0 < 2`. -/
theorem claim_C8_amended_witness :
    2 < 3 ∧ 0 < 2 ∧ 2 < 3 ∧
      (influence 3 0 ≤ influence 3 2 ∧ influence 3 0 < influence 3 2) :=
  ⟨by decide, by decide, by decide,
    (claim_C8_amended_later_stops_dominate 3 0 2 (by decide) (by decide)
        (by decide)).1,
    by
      have := claim_C8_amended_later_stops_dominate 3 0 2 (by decide)
        (by decide) (by decide)
      simpa using this.2⟩

/-- C9: a background-config change notification with an empty entries
list leaves the application state (popup, config including the dark and
light entry lists, and palette) entirely unchanged. -/
theorem claim_C9_empty_bg_update (m : AppModel) (is_dark : Bool) :
    handleBgUpdate m is_dark [] = m := by
  unfold handleBgUpdate
  simp

/-- C10: `update_bg` writes the mode-specific configured entries (dark
when `is_dark`, light otherwise) into the background store only when the
enabled flag is true (the store is untouched otherwise), and in every
case recomputes the palette from the store's resulting state — from the
single default background when `same_on_all` is set, otherwise from the
per-output backgrounds list. -/
theorem claim_C10_update_bg_store_and_palette (setEntry : SetEntry)
    (load : Loader) (cluster : Cluster) (cfg : Config) (store : BgStore)
    (is_dark : Bool) :
    (update_bg setEntry load cluster cfg store is_dark).1 =
      (if cfg.enabled then
        (if is_dark then cfg.dark else cfg.light).foldl setEntry store
      else store) ∧
    (update_bg setEntry load cluster cfg store is_dark).2 =
      paletteOf load cluster
        (if (update_bg setEntry load cluster cfg store is_dark).1.same_on_all
         then [(update_bg setEntry load cluster cfg store
             is_dark).1.default_background]
         else (update_bg setEntry load cluster cfg store
             is_dark).1.backgrounds) := by
  constructor
  · show writeEntries setEntry cfg store is_dark = _
    unfold writeEntries
    rfl
  · show paletteOf load cluster (selectBackgrounds _) = _
    unfold selectBackgrounds
    rfl
